import Mathlib

set_option maxHeartbeats 1000000

/-!
Shallow embedding of the poppy_ergo_jr_controllers node
(`src/controllers.py`, class `ErgoJrControllers`) and proofs about it.

Times and positions are modelled as exact rationals.  External effects
(the pypot hardware adapter, the logger, the lock) are recorded as an
explicit event trace; the state effect of the external `goto_position`
primitive is an arbitrary parameter where it matters.
-/

/-- One timed waypoint of a trajectory (a `JointTrajectoryPoint`):
joint positions plus the target elapsed time from the trajectory start. -/
structure TrajPoint where
  positions : List ℚ
  time_from_start : ℚ
deriving DecidableEq

/-- A joint trajectory: joint names plus the ordered waypoint list. -/
structure Trajectory where
  joint_names : List String
  points : List TrajPoint
deriving DecidableEq

/-- A motor as seen through the hardware adapter (`self.ergo.motors`). -/
structure Motor where
  name : String
  goal_position : ℚ
  moving_speed : ℚ
  compliant : Bool
deriving DecidableEq

/-- The robot handle (`self.ergo`): its list of motors. -/
structure Ergo where
  motors : List Motor
deriving DecidableEq

/-- Log lines emitted by the controller, kept as data (text elided). -/
inductive LogMsg where
  | executing (n : Nat)
  | ended
  | aborted
  | skipPoint (id total : Nat)
  | teleporting
  | reaching
  | compliantOn
  | compliantOff
deriving DecidableEq

/-- Observable events of a handler: lock operations, hardware commands,
sleeps and log lines. -/
inductive Ev where
  | lockAcq
  | lockRel
  | gotoPos (target : List (String × ℚ)) (duration : ℚ)
  | sleep (d : ℚ)
  | setGoal (idx : Nat) (v : ℚ)
  | setSpeed (idx : Nat) (v : ℚ)
  | setCompliantFlag (idx : Nat) (b : Bool)
  | logI (m : LogMsg)
  | logW (m : LogMsg)
deriving DecidableEq

/-- How the waypoint loop of `execute` terminated: normally / after an
`is_shutdown` break (both log "Trajectory ended!"), or by a
`ROSInterruptException` raised inside `rospy.sleep` ("Trajectory aborted!"). -/
inductive Outcome where
  | finished
  | interrupted
deriving DecidableEq

/-- The waypoint loop of `ErgoJrControllers.execute` (controllers.py,
lines 141-157).  `tm` is `self.params['time_margin']`, `names` the
trajectory's joint names, `n` the total number of points (used in the skip
warning).  `shut i` models the value of `rospy.is_shutdown()` observed at
the top of iteration `i`; `intr i` models whether the `rospy.sleep` of
iteration `i` is interrupted by shutdown (raising `ROSInterruptException`).
Arguments of the recursion: current point index `i`, the cumulative
elapsed-time variable `time`, and the remaining points.  Returns the event
trace, the outcome and the final value of `time`. -/
def execRun (tm : ℚ) (names : List String) (shut intr : Nat → Bool) (n : Nat) :
    Nat → ℚ → List TrajPoint → List Ev × Outcome × ℚ
  | _, t, [] => ([], Outcome.finished, t)
  | i, t, p :: rest =>
    if shut i = true then ([], Outcome.finished, t)
    else if p.time_from_start - t < 0 then
      let r := execRun tm names shut intr n (i + 1) t rest
      (Ev.logW (LogMsg.skipPoint (i + 1) n) :: r.1, r.2)
    else if intr i = true then
      ([Ev.gotoPos (names.zip p.positions) (tm + (p.time_from_start - t)),
        Ev.sleep (p.time_from_start - t - 1 / 1000)],
       Outcome.interrupted, t)
    else
      let r := execRun tm names shut intr n (i + 1) p.time_from_start rest
      (Ev.gotoPos (names.zip p.positions) (tm + (p.time_from_start - t)) ::
        Ev.sleep (p.time_from_start - t - 1 / 1000) :: r.1, r.2)

/-- The closing log line of `execute`: the `try/except/else` around the
waypoint loop logs "Trajectory aborted!" on interruption and
"Trajectory ended!" otherwise (also after an `is_shutdown` break). -/
def endLog : Outcome → Ev
  | Outcome.finished => Ev.logI LogMsg.ended
  | Outcome.interrupted => Ev.logW LogMsg.aborted

/-- `ErgoJrControllers.execute` (controllers.py, lines 138-161): acquires
the shared lock, logs the start line, runs the waypoint loop and logs the
closing line before releasing the lock. -/
def executeTraj (tm : ℚ) (shut intr : Nat → Bool) (traj : Trajectory) :
    List Ev × Outcome × ℚ :=
  let r := execRun tm traj.joint_names shut intr traj.points.length 0 0 traj.points
  (Ev.lockAcq :: Ev.logI (LogMsg.executing traj.points.length) :: r.1 ++
     [endLog r.2.1, Ev.lockRel],
   r.2)

/-- `ErgoJrControllers._cb_execute` (controllers.py, lines 106-111): spawns
the executor on a daemon thread and immediately returns an empty (success)
acknowledgment, whatever the trajectory is. -/
def cb_execute_ack (_traj : Trajectory) : Bool :=
  true

/-- Environment with no shutdown signal: `rospy.is_shutdown()` is always
false and no sleep is ever interrupted. -/
def noSignal : Nat → Bool := fun _ => false

/-- The targets of the `goto_position` commands in a trace, in order. -/
def gotoTargets (evs : List Ev) : List (List (String × ℚ)) :=
  evs.filterMap fun e =>
    match e with
    | Ev.gotoPos tgt _ => some tgt
    | _ => none

/-- The durations of the `goto_position` commands in a trace, in order. -/
def gotoDurations (evs : List Ev) : List ℚ :=
  evs.filterMap fun e =>
    match e with
    | Ev.gotoPos _ d => some d
    | _ => none

/-- Sum of all the `rospy.sleep` durations in a trace. -/
def sleepSum (evs : List Ev) : ℚ :=
  (evs.filterMap fun e =>
    match e with
    | Ev.sleep d => some d
    | _ => none).sum

/-- The `time_from_start` of the last point, defaulting to `t`. -/
def lastTime (t : ℚ) : List TrajPoint → ℚ
  | [] => t
  | p :: rest => lastTime p.time_from_start rest

/-- All `time_from_start` values are reachable without skips when starting
from elapsed time `t`: each is at least the previous one (and at least `t`). -/
def timesOK : ℚ → List TrajPoint → Prop
  | _, [] => True
  | t, p :: rest => t ≤ p.time_from_start ∧ timesOK p.time_from_start rest

/-- `time_from_start` values strictly increase, starting strictly above `t`. -/
def strictAfter : ℚ → List TrajPoint → Prop
  | _, [] => True
  | t, p :: rest => t < p.time_from_start ∧ strictAfter p.time_from_start rest

/-- The `time_from_start` values are strictly increasing, the first one
being nonnegative. -/
def strictTimes : List TrajPoint → Prop
  | [] => True
  | p :: rest => 0 ≤ p.time_from_start ∧ strictAfter p.time_from_start rest

/-- Python dict built from a key/value pair list: a later binding of the
same key overrides an earlier one (`dict(zip(names, positions))`). -/
def dictGet : List (String × ℚ) → String → Option ℚ
  | [], _ => none
  | kv :: rest, k =>
    match dictGet rest k with
    | some v => some v
    | none => if kv.1 = k then some kv.2 else none

/-- Python `list.index`: index of the first equal element, or `None`
(modelling the caught `ValueError`). -/
def listIndex (nm : String) : List String → Option Nat
  | [] => none
  | s :: rest => if s = nm then some 0 else (listIndex nm rest).map (· + 1)

/-- The fixed whitelist `['m1', 'm2', 'm3', 'm4', 'm5', 'm6']` of
`_cb_reach` (controllers.py, line 126). -/
def whitelist : List String := ["m1", "m2", "m3", "m4", "m5", "m6"]

/-- Replace the element at index `i` (out of range: no element touched). -/
def modifyAt (f : Motor → Motor) : Nat → List Motor → List Motor
  | _, [] => []
  | 0, m :: rest => f m :: rest
  | Nat.succ k, m :: rest => m :: modifyAt f k rest

/-- The teleport loop of `_cb_reach` for duration ≤ 0 (controllers.py,
lines 124-130): for each requested joint name in order, look up its index
in the whitelist (a `ValueError` is swallowed by `pass`), then set
`self.ergo.motors[index].goal_position = target[motor]`.  A missing dict
key (`KeyError`, possible when the request has more names than positions)
or an out-of-range motor index (`IndexError`) raises: the loop stops there
and the handler does not return success; mutations already made persist.
Returns the state, the `setGoal` events and the no-exception flag. -/
def teleportLoop (target : List (String × ℚ)) : Ergo → List String → Ergo × List Ev × Bool
  | st, [] => (st, [], true)
  | st, nm :: rest =>
    match listIndex nm whitelist with
    | none => teleportLoop target st rest
    | some i =>
      match dictGet target nm with
      | none => (st, [], false)
      | some v =>
        if i < st.motors.length then
          let r := teleportLoop target
            ⟨modifyAt (fun m => { m with goal_position := v }) i st.motors⟩ rest
          (r.1, Ev.setGoal i v :: r.2.1, r.2.2)
        else (st, [], false)

/-- `ErgoJrControllers.reset_max_speed` (controllers.py, lines 41-44):
set every motor's `moving_speed` back to 100. -/
def reset_max_speed (st : Ergo) : Ergo × List Ev :=
  (⟨st.motors.map fun m => { m with moving_speed := 100 }⟩,
   (List.range st.motors.length).map fun i => Ev.setSpeed i 100)

/-- A `ReachTarget` request: parallel name/position lists plus a duration. -/
structure ReachRequest where
  name : List String
  position : List ℚ
  duration : ℚ
deriving DecidableEq

/-- `ErgoJrControllers._cb_reach` (controllers.py, lines 113-136).
`gotoEff` is the state effect of the external `goto_position` primitive
(arbitrary: it may throttle speeds and move goals).  Returns the new
state, the event trace and whether the handler returned (success). -/
def cb_reach (gotoEff : List (String × ℚ) → ℚ → Ergo → Ergo)
    (req : ReachRequest) (st : Ergo) : Ergo × List Ev × Bool :=
  let target := req.name.zip req.position
  if req.duration ≤ 0 then
    let r := teleportLoop target st req.name
    (r.1, Ev.logI LogMsg.teleporting :: Ev.lockAcq :: r.2.1 ++ [Ev.lockRel], r.2.2)
  else
    let st1 := gotoEff target req.duration st
    let r := reset_max_speed st1
    (r.1,
     Ev.logI LogMsg.reaching :: Ev.lockAcq ::
       Ev.gotoPos target req.duration :: r.2 ++ [Ev.lockRel],
     true)

/-- `ErgoJrControllers._cb_set_compliant` (controllers.py, lines 163-168):
set every motor's compliance flag under the lock, always acknowledge. -/
def cb_set_compliant (b : Bool) (st : Ergo) : Ergo × List Ev × Bool :=
  (⟨st.motors.map fun m => { m with compliant := b }⟩,
   Ev.logI (if b then LogMsg.compliantOn else LogMsg.compliantOff) :: Ev.lockAcq ::
     ((List.range st.motors.length).map fun i => Ev.setCompliantFlag i b) ++ [Ev.lockRel],
   true)

/-- Startup environment flags: which external preconditions hold. -/
structure StartEnv where
  config_file_ok : Bool
  has_publish_rate : Bool
  has_description : Bool
  has_description_file : Bool
  hw_init_ok : Bool
deriving DecidableEq

/-- How startup ends: either the process exits with a code, or the node is
up (services registered, publish loop running). -/
inductive StartResult where
  | exit (code : Int)
  | running
deriving DecidableEq

/-- Startup of the node: `__init__` (controllers.py, lines 17-39) followed
by `run` (lines 46-69).  An unreadable/unparsable config file or a missing
`publish_rate` key raises an uncaught exception in `__init__` (process
status 1); a missing `description`/`description_file` ROS parameter or an
`IOError` from the hardware adapter constructor calls `exit(-1)`. -/
def startup (env : StartEnv) : StartResult :=
  if env.config_file_ok = false then StartResult.exit 1
  else if env.has_publish_rate = false then StartResult.exit 1
  else if env.has_description = false ∨ env.has_description_file = false then
    StartResult.exit (-1)
  else if env.hw_init_ok = false then StartResult.exit (-1)
  else StartResult.running

/-! ### Lock model

Abstraction of a handler's trace to lock operations and hardware
mutations, and a two-thread interleaving semantics of the shared
`threading.RLock` (`self.robot_lock`). -/

/-- Lock-level events: acquire, release, or a mutation of the hardware
adapter (a goto command, a goal/speed/compliance write). -/
inductive LEvent where
  | acq
  | rel
  | touch
deriving DecidableEq

/-- Abstract a handler trace to lock-level events: sleeps and log lines
are dropped, every hardware mutation becomes `touch`. -/
def lockAbs (evs : List Ev) : List LEvent :=
  evs.filterMap fun e =>
    match e with
    | Ev.lockAcq => some LEvent.acq
    | Ev.lockRel => some LEvent.rel
    | Ev.gotoPos _ _ => some LEvent.touch
    | Ev.setGoal _ _ => some LEvent.touch
    | Ev.setSpeed _ _ => some LEvent.touch
    | Ev.setCompliantFlag _ _ => some LEvent.touch
    | Ev.sleep _ => none
    | Ev.logI _ => none
    | Ev.logW _ => none

/-- A single critical section covering every mutation: one acquire first,
then only mutations, then one release last. -/
def SingleCS (l : List LEvent) : Prop :=
  ∃ n, l = LEvent.acq :: List.replicate n LEvent.touch ++ [LEvent.rel]

/-- A thread that is inside its critical section: only its remaining
mutations, then the final release. -/
def midCS (l : List LEvent) : Prop :=
  ∃ n, l = List.replicate n LEvent.touch ++ [LEvent.rel]

/-- Two-thread configuration: per-thread remaining events, lock owner and
reentrancy depth (an `RLock`). -/
structure Conf where
  rem : Bool → List LEvent
  owner : Option Bool
  depth : Nat

/-- Update one thread's remaining event list. -/
def updRem (rem : Bool → List LEvent) (t : Bool) (l : List LEvent) :
    Bool → List LEvent :=
  fun u => if u = t then l else rem u

/-- One scheduling step: thread `t` performs its next event.  Acquiring
requires the lock to be free or already owned by `t` (reentrant lock);
a blocked thread simply has no enabled step.  Mutations themselves are
not guarded by the semantics: exclusivity must come from the program. -/
inductive LStep : Conf → Bool × LEvent → Conf → Prop where
  | acqFree (c : Conf) (t : Bool) (rest : List LEvent) :
      c.rem t = LEvent.acq :: rest → c.owner = none →
      LStep c (t, LEvent.acq) ⟨updRem c.rem t rest, some t, 1⟩
  | acqReent (c : Conf) (t : Bool) (rest : List LEvent) :
      c.rem t = LEvent.acq :: rest → c.owner = some t →
      LStep c (t, LEvent.acq) ⟨updRem c.rem t rest, some t, c.depth + 1⟩
  | relInner (c : Conf) (t : Bool) (rest : List LEvent) :
      c.rem t = LEvent.rel :: rest → c.owner = some t → 2 ≤ c.depth →
      LStep c (t, LEvent.rel) ⟨updRem c.rem t rest, some t, c.depth - 1⟩
  | relLast (c : Conf) (t : Bool) (rest : List LEvent) :
      c.rem t = LEvent.rel :: rest → c.owner = some t → c.depth = 1 →
      LStep c (t, LEvent.rel) ⟨updRem c.rem t rest, none, 0⟩
  | touch (c : Conf) (t : Bool) (rest : List LEvent) :
      c.rem t = LEvent.touch :: rest →
      LStep c (t, LEvent.touch) ⟨updRem c.rem t rest, c.owner, c.depth⟩

/-- A finite run of the two-thread system, recording who did what. -/
inductive RunTr : Conf → List (Bool × LEvent) → Conf → Prop where
  | nil (c : Conf) : RunTr c [] c
  | cons {c c1 c2 : Conf} {e : Bool × LEvent} {tr : List (Bool × LEvent)} :
      LStep c e c1 → RunTr c1 tr c2 → RunTr c (e :: tr) c2

/-- The sequence of threads performing hardware mutations, in run order. -/
def touchSeq (tr : List (Bool × LEvent)) : List Bool :=
  tr.filterMap fun te => if te.2 = LEvent.touch then some te.1 else none

/-- All of `t`'s mutations first, then all of the other thread's. -/
def HeadBlk (t : Bool) (l : List Bool) : Prop :=
  ∃ a b, l = List.replicate a t ++ List.replicate b (!t)

/-- Mutations do not interleave: one thread's block, then the other's. -/
def TwoBlk (l : List Bool) : Prop :=
  HeadBlk true l ∨ HeadBlk false l

/-- The initial configuration for two concurrent handler calls. -/
def initConf (lA lB : List LEvent) : Conf :=
  ⟨fun t => if t then lA else lB, none, 0⟩

/-- Invariant of the two-thread system when both threads run
single-critical-section programs: when the lock is free, each thread is
either before its acquire or done; when thread `t` owns it (at depth 1),
`t` is inside its critical section and the other thread has not started
or is done. -/
def LockInv (c : Conf) : Prop :=
  (c.owner = none → ∀ t, SingleCS (c.rem t) ∨ c.rem t = []) ∧
  (∀ t, c.owner = some t → c.depth = 1 ∧ midCS (c.rem t) ∧
    (SingleCS (c.rem (!t)) ∨ c.rem (!t) = []))

/-- The `moving_speed` reset pairs of a trace (`m.moving_speed = 100`). -/
def speedSets (evs : List Ev) : List (Nat × ℚ) :=
  evs.filterMap fun e =>
    match e with
    | Ev.setSpeed i v => some (i, v)
    | _ => none

/-! ### Helper lemmas about the trajectory executor -/

theorem strictAfter_to_timesOK :
    ∀ (ps : List TrajPoint) (t : ℚ), strictAfter t ps → timesOK t ps := by
  intro ps
  induction ps with
  | nil => intro t _; trivial
  | cons p ps ih =>
    intro t h
    obtain ⟨h1, h2⟩ := h
    exact ⟨le_of_lt h1, ih p.time_from_start h2⟩

theorem strictTimes_to_timesOK {ps : List TrajPoint} (h : strictTimes ps) :
    timesOK 0 ps := by
  cases ps with
  | nil => trivial
  | cons p rest =>
    obtain ⟨h1, h2⟩ := h
    exact ⟨h1, strictAfter_to_timesOK rest p.time_from_start h2⟩

theorem timesOK_take :
    ∀ (ps : List TrajPoint) (k : Nat) (t : ℚ), timesOK t ps → timesOK t (ps.take k) := by
  intro ps
  induction ps with
  | nil => intro k t _; simp [timesOK]
  | cons p ps ih =>
    intro k t h
    cases k with
    | zero => trivial
    | succ k => exact ⟨h.1, ih k p.time_from_start h.2⟩

/-- Behaviour of the waypoint loop with no shutdown signal on a trajectory
whose times are reachable in order: one goto per waypoint in list order,
the sleeps sum to the last `time_from_start` minus one epsilon per point,
and the loop finishes with the elapsed time at the last `time_from_start`. -/
theorem exec_ok (tm : ℚ) (names : List String) (n : Nat) :
    ∀ (ps : List TrajPoint) (i : Nat) (t : ℚ), timesOK t ps →
      gotoTargets (execRun tm names noSignal noSignal n i t ps).1 =
          ps.map (fun p => names.zip p.positions) ∧
      sleepSum (execRun tm names noSignal noSignal n i t ps).1 =
          lastTime t ps - t - ps.length * (1 / 1000) ∧
      (execRun tm names noSignal noSignal n i t ps).2 =
          (Outcome.finished, lastTime t ps) := by
  intro ps
  induction ps with
  | nil =>
    intro i t _
    simp [execRun, gotoTargets, sleepSum, lastTime]
  | cons p ps ih =>
    intro i t h
    obtain ⟨h1, h2⟩ := h
    have hd : ¬(p.time_from_start - t < 0) := by linarith
    obtain ⟨ihg, ihs, iho⟩ := ih (i + 1) p.time_from_start h2
    refine ⟨?_, ?_, ?_⟩
    · simp [execRun, noSignal, hd, gotoTargets, List.filterMap_cons] at ihg ⊢
      exact ihg
    · simp [execRun, noSignal, hd, sleepSum, List.filterMap_cons, lastTime] at ihs ⊢
      linarith
    · simp [execRun, noSignal, hd, lastTime]
      exact iho

/-- The wrapper of `execute` adds no goto command around the loop. -/
theorem gotoTargets_executeTraj (tm : ℚ) (shut intr : Nat → Bool) (traj : Trajectory) :
    gotoTargets (executeTraj tm shut intr traj).1 =
      gotoTargets
        (execRun tm traj.joint_names shut intr traj.points.length 0 0 traj.points).1 := by
  simp only [executeTraj, gotoTargets, List.filterMap_cons, List.filterMap_append]
  cases (execRun tm traj.joint_names shut intr traj.points.length 0 0 traj.points).2.1 <;>
    simp [endLog]

/-- The wrapper of `execute` adds no sleep around the loop. -/
theorem sleepSum_executeTraj (tm : ℚ) (shut intr : Nat → Bool) (traj : Trajectory) :
    sleepSum (executeTraj tm shut intr traj).1 =
      sleepSum
        (execRun tm traj.joint_names shut intr traj.points.length 0 0 traj.points).1 := by
  simp only [executeTraj, sleepSum, List.filterMap_cons, List.filterMap_append]
  cases (execRun tm traj.joint_names shut intr traj.points.length 0 0 traj.points).2.1 <;>
    simp [endLog]

/-- The wrapper of `execute` returns the loop's outcome and elapsed time. -/
theorem snd_executeTraj (tm : ℚ) (shut intr : Nat → Bool) (traj : Trajectory) :
    (executeTraj tm shut intr traj).2 =
      (execRun tm traj.joint_names shut intr traj.points.length 0 0 traj.points).2 := rfl

-- Basic sanity checks of the executor model on concrete inputs.
example :
    execRun 0 ["m1"] noSignal noSignal 2 0 0 [⟨[5], 1⟩, ⟨[6], 2⟩] =
      ([Ev.gotoPos [("m1", 5)] 1, Ev.sleep (1 - 1 / 1000),
        Ev.gotoPos [("m1", 6)] 1, Ev.sleep (1 - 1 / 1000)],
       Outcome.finished, 2) := by
  simp [execRun, noSignal]
  norm_num

example :
    execRun 0 ["m1"] noSignal noSignal 2 0 0 [⟨[5], -1⟩, ⟨[6], 2⟩] =
      ([Ev.logW (LogMsg.skipPoint 1 2), Ev.gotoPos [("m1", 6)] 2,
        Ev.sleep (2 - 1 / 1000)],
       Outcome.finished, 2) := by
  simp [execRun, noSignal]
  norm_num

/-! ### Claims about the trajectory executor -/

/-- C1 (amended): for every trajectory whose waypoints have strictly
increasing and nonnegative `time_from_start` values, the executor (absent
shutdown) issues exactly one goto command per waypoint, strictly in
input-list order; after processing each waypoint prefix the cumulative
elapsed-time variable equals that waypoint's `time_from_start`; and the
total commanded wait equals the last waypoint's `time_from_start` minus
one fixed epsilon (0.001 s) per waypoint. -/
theorem c1_execute_order_and_timing (tm : ℚ) (traj : Trajectory)
    (h : strictTimes traj.points) :
    gotoTargets (executeTraj tm noSignal noSignal traj).1 =
        traj.points.map (fun p => traj.joint_names.zip p.positions) ∧
    (executeTraj tm noSignal noSignal traj).2.1 = Outcome.finished ∧
    (executeTraj tm noSignal noSignal traj).2.2 = lastTime 0 traj.points ∧
    (∀ k : Nat,
      (executeTraj tm noSignal noSignal ⟨traj.joint_names, traj.points.take k⟩).2.2 =
        lastTime 0 (traj.points.take k)) ∧
    sleepSum (executeTraj tm noSignal noSignal traj).1 =
        lastTime 0 traj.points - traj.points.length * (1 / 1000) := by
  have hOK := strictTimes_to_timesOK h
  obtain ⟨hg, hs, ho⟩ :=
    exec_ok tm traj.joint_names traj.points.length traj.points 0 0 hOK
  refine ⟨?_, ?_, ?_, ?_, ?_⟩
  · rw [gotoTargets_executeTraj]; simpa using hg
  · rw [snd_executeTraj, ho]
  · rw [snd_executeTraj, ho]
  · intro k
    obtain ⟨_, _, ho'⟩ :=
      exec_ok tm traj.joint_names (traj.points.take k).length (traj.points.take k) 0 0
        (timesOK_take traj.points k 0 hOK)
    rw [snd_executeTraj, ho']
  · rw [sleepSum_executeTraj]; simpa using hs

/-- C1 counterexample: the waypoint times `[-1, 1]` are strictly
increasing, yet the first waypoint is skipped (its duration is negative),
so only one goto command is issued for the two waypoints. -/
theorem c1_strict_increase_counterexample :
    strictAfter (-1) [(⟨[2], 1⟩ : TrajPoint)] ∧
    gotoTargets
        (executeTraj 0 noSignal noSignal
          ⟨["m1"], [⟨[1], -1⟩, ⟨[2], 1⟩]⟩).1 = [[("m1", (2 : ℚ))]] ∧
    ([(⟨[1], -1⟩ : TrajPoint), ⟨[2], 1⟩] : List TrajPoint).length = 2 := by
  refine ⟨?_, ?_, rfl⟩
  · exact ⟨by norm_num, trivial⟩
  · rw [gotoTargets_executeTraj]
    simp [execRun, noSignal, gotoTargets]
    norm_num
    rfl

/-- C1 witness: the amended theorem applied to a concrete two-point
trajectory with strictly increasing nonnegative times. -/
theorem c1_execute_order_and_timing_witness :
    strictTimes ([⟨[5], 1⟩, ⟨[6], 2⟩] : List TrajPoint) ∧
    gotoTargets (executeTraj 0 noSignal noSignal ⟨["m1"], [⟨[5], 1⟩, ⟨[6], 2⟩]⟩).1 =
      [[("m1", (5 : ℚ))], [("m1", (6 : ℚ))]] ∧
    (executeTraj 0 noSignal noSignal ⟨["m1"], [⟨[5], 1⟩, ⟨[6], 2⟩]⟩).2.2 = 2 ∧
    sleepSum (executeTraj 0 noSignal noSignal ⟨["m1"], [⟨[5], 1⟩, ⟨[6], 2⟩]⟩).1 =
      2 - 2 * (1 / 1000) := by
  have hst : strictTimes ([⟨[5], 1⟩, ⟨[6], 2⟩] : List TrajPoint) := by
    refine ⟨by norm_num, by norm_num, trivial⟩
  have h := c1_execute_order_and_timing 0 ⟨["m1"], [⟨[5], 1⟩, ⟨[6], 2⟩]⟩ hst
  refine ⟨hst, ?_, ?_, ?_⟩
  · simpa using h.1
  · simpa [lastTime] using h.2.2.1
  · simpa [lastTime] using h.2.2.2.2

/-- C2: a waypoint whose `time_from_start` is below the cumulative elapsed
time (negative duration) is skipped: the executor only logs a warning for
it — no goto, no sleep — keeps the elapsed time unchanged, and continues
with the remaining waypoints, whose behaviour (including the final
outcome) is exactly that of the trajectory without the skipped point. -/
theorem c2_skip_stale_waypoint (tm : ℚ) (names : List String)
    (shut intr : Nat → Bool) (n i : Nat) (t : ℚ) (p : TrajPoint)
    (rest : List TrajPoint) (hs : shut i = false)
    (hlt : p.time_from_start < t) :
    execRun tm names shut intr n i t (p :: rest) =
      (Ev.logW (LogMsg.skipPoint (i + 1) n) ::
         (execRun tm names shut intr n (i + 1) t rest).1,
       (execRun tm names shut intr n (i + 1) t rest).2) := by
  have hd : p.time_from_start - t < 0 := by linarith
  simp [execRun, hs, hd]

/-- C2 witness: a concrete stale waypoint (time 3 with elapsed 5) is
skipped with a warning and the loop ends with elapsed time still 5. -/
theorem c2_skip_stale_waypoint_witness :
    noSignal 0 = false ∧
    (⟨[1], 3⟩ : TrajPoint).time_from_start < 5 ∧
    execRun 0 ["m1"] noSignal noSignal 2 0 5 [⟨[1], 3⟩] =
      ([Ev.logW (LogMsg.skipPoint 1 2)], Outcome.finished, 5) := by
  refine ⟨rfl, by norm_num, ?_⟩
  have h := c2_skip_stale_waypoint 0 ["m1"] noSignal noSignal 2 0 5 ⟨[1], 3⟩ []
    rfl (by norm_num)
  simpa [execRun] using h

/-- C3: a non-skipped waypoint (duration ≥ 0, no shutdown observed, sleep
not interrupted) produces exactly one goto command whose target is the
joint-name/position mapping and whose motion duration is the time margin
plus the duration, followed by a sleep of the duration minus 0.001 s (the
margin is not part of the wait); the loop then continues with the elapsed
time advanced to the waypoint's `time_from_start`. -/
theorem c3_goto_margin_and_wait (tm : ℚ) (names : List String)
    (shut intr : Nat → Bool) (n i : Nat) (t : ℚ) (p : TrajPoint)
    (rest : List TrajPoint) (hs : shut i = false)
    (hd : 0 ≤ p.time_from_start - t) (hi : intr i = false) :
    execRun tm names shut intr n i t (p :: rest) =
      (Ev.gotoPos (names.zip p.positions) (tm + (p.time_from_start - t)) ::
         Ev.sleep (p.time_from_start - t - 1 / 1000) ::
         (execRun tm names shut intr n (i + 1) p.time_from_start rest).1,
       (execRun tm names shut intr n (i + 1) p.time_from_start rest).2) := by
  have hd' : ¬(p.time_from_start - t < 0) := not_lt.mpr hd
  simp [execRun, hs, hi, hd']

/-- C3 witness: a concrete waypoint (time 7, elapsed 5, margin 2) yields a
goto of duration 2 + 2 and a sleep of 2 − 0.001. -/
theorem c3_goto_margin_and_wait_witness :
    noSignal 0 = false ∧
    (0 : ℚ) ≤ (⟨[4], 7⟩ : TrajPoint).time_from_start - 5 ∧
    execRun 2 ["m1"] noSignal noSignal 1 0 5 [⟨[4], 7⟩] =
      ([Ev.gotoPos [("m1", 4)] (2 + (7 - 5)), Ev.sleep (7 - 5 - 1 / 1000)],
       Outcome.finished, 7) := by
  refine ⟨rfl, by norm_num, ?_⟩
  have h := c3_goto_margin_and_wait 2 ["m1"] noSignal noSignal 1 0 5 ⟨[4], 7⟩ []
    rfl (by norm_num) rfl
  simpa [execRun] using h

/-- C7: once the shutdown signal is observed, no further waypoint is
processed.  (a) Observed at a waypoint boundary: the loop stops with no
event at all for the remaining waypoints.  (b) Observed as an interruption
of the inter-waypoint sleep: the waypoint's goto and sleep were issued but
nothing further, and the loop reports `interrupted`.  (c) An interrupted
execution logs the "Trajectory aborted!" warning.  (d) The `execute`
service callback acknowledges success regardless (no error status is ever
returned to the caller). -/
theorem c7_shutdown_stops_executor (tm : ℚ) (names : List String)
    (shut intr : Nat → Bool) (n i : Nat) (t : ℚ) (p : TrajPoint)
    (rest : List TrajPoint) (traj : Trajectory) :
    (shut i = true →
      execRun tm names shut intr n i t (p :: rest) = ([], Outcome.finished, t)) ∧
    (shut i = false → 0 ≤ p.time_from_start - t → intr i = true →
      execRun tm names shut intr n i t (p :: rest) =
        ([Ev.gotoPos (names.zip p.positions) (tm + (p.time_from_start - t)),
          Ev.sleep (p.time_from_start - t - 1 / 1000)],
         Outcome.interrupted, t)) ∧
    ((executeTraj tm shut intr traj).2.1 = Outcome.interrupted →
      Ev.logW LogMsg.aborted ∈ (executeTraj tm shut intr traj).1) ∧
    cb_execute_ack traj = true := by
  refine ⟨?_, ?_, ?_, rfl⟩
  · intro hs
    simp [execRun, hs]
  · intro hs hd hi
    have hd' : ¬(p.time_from_start - t < 0) := not_lt.mpr hd
    simp [execRun, hs, hi, hd']
  · intro habort
    rw [snd_executeTraj] at habort
    simp [executeTraj, endLog, habort]

/-! ### Helper lemmas about `_cb_reach` and `_cb_set_compliant` -/

theorem modifyAt_length (f : Motor → Motor) :
    ∀ (i : Nat) (l : List Motor), (modifyAt f i l).length = l.length := by
  intro i l
  induction l generalizing i with
  | nil => cases i <;> rfl
  | cons m rest ih =>
    cases i with
    | zero => rfl
    | succ k => simp [modifyAt, ih k]

theorem modifyAt_get_ne (f : Motor → Motor) :
    ∀ (i j : Nat) (l : List Motor), i ≠ j →
      (modifyAt f i l)[j]? = l[j]? := by
  intro i j l
  induction l generalizing i j with
  | nil => intro _; cases i <;> rfl
  | cons m rest ih =>
    intro hij
    cases i with
    | zero =>
      cases j with
      | zero => exact absurd rfl hij
      | succ jj => simp [modifyAt]
    | succ k =>
      cases j with
      | zero => simp [modifyAt]
      | succ jj => simpa [modifyAt] using ih k jj (by omega)

theorem modifyAt_get_eq (f : Motor → Motor) :
    ∀ (i : Nat) (l : List Motor),
      (modifyAt f i l)[i]? = l[i]?.map f := by
  intro i l
  induction l generalizing i with
  | nil => cases i <;> rfl
  | cons m rest ih =>
    cases i with
    | zero => simp [modifyAt]
    | succ k => simpa [modifyAt] using ih k

theorem modifyAt_map_proj {α : Type} (f : Motor → α) (g : Motor → Motor)
    (h : ∀ m, f (g m) = f m) :
    ∀ (i : Nat) (l : List Motor), (modifyAt g i l).map f = l.map f := by
  intro i l
  induction l generalizing i with
  | nil => cases i <;> rfl
  | cons m rest ih =>
    cases i with
    | zero => simp [modifyAt, h]
    | succ k => simp [modifyAt, ih k]

theorem listIndex_get :
    ∀ (l : List String) (nm : String) (i : Nat),
      listIndex nm l = some i → l[i]? = some nm := by
  intro l
  induction l with
  | nil => intro nm i h; simp [listIndex] at h
  | cons s rest ih =>
    intro nm i h
    by_cases hs : s = nm
    · rw [listIndex, if_pos hs] at h
      obtain rfl : (0 : Nat) = i := Option.some.inj h
      simp [hs]
    · rw [listIndex, if_neg hs] at h
      obtain ⟨j, hj, rfl⟩ := Option.map_eq_some'.mp h
      simpa using ih nm j hj

theorem listIndex_lt {l : List String} {nm : String} {i : Nat}
    (h : listIndex nm l = some i) : i < l.length := by
  have h1 := listIndex_get l nm i h
  exact (List.getElem?_eq_some.mp h1).1

theorem listIndex_inj {l : List String} {a b : String} {i : Nat}
    (ha : listIndex a l = some i) (hb : listIndex b l = some i) : a = b := by
  have h1 := listIndex_get l a i ha
  have h2 := listIndex_get l b i hb
  rw [h1] at h2
  exact Option.some.inj h2

theorem dictGet_zip_isSome :
    ∀ (names : List String) (positions : List ℚ) (nm : String),
      names.length ≤ positions.length → nm ∈ names →
      (dictGet (names.zip positions) nm).isSome := by
  intro names
  induction names with
  | nil => intro positions nm _ hmem; simp at hmem
  | cons nm0 rest ih =>
    intro positions nm hlen hmem
    cases positions with
    | nil => simp at hlen
    | cons v0 ps =>
      simp only [List.length_cons, Nat.add_le_add_iff_right] at hlen
      rw [List.zip_cons_cons]
      rcases List.mem_cons.mp hmem with rfl | hmem'
      · cases hrec : dictGet (rest.zip ps) nm with
        | some v => simp only [dictGet, hrec, Option.isSome_some]
        | none => simp only [dictGet, hrec]; simp
      · have hss := ih ps nm hlen hmem'
        cases hrec : dictGet (rest.zip ps) nm with
        | some v => simp only [dictGet, hrec, Option.isSome_some]
        | none => rw [hrec] at hss; simp at hss

theorem teleportLoop_len (target : List (String × ℚ)) :
    ∀ (names : List String) (st : Ergo),
      (teleportLoop target st names).1.motors.length = st.motors.length := by
  intro names
  induction names with
  | nil => intro st; rfl
  | cons nm rest ih =>
    intro st
    cases hidx : listIndex nm whitelist with
    | none => simp [teleportLoop, hidx, ih st]
    | some i =>
      cases hd : dictGet target nm with
      | none => simp [teleportLoop, hidx, hd]
      | some v =>
        by_cases hlt : i < st.motors.length
        · simp [teleportLoop, hidx, hd, hlt, ih, modifyAt_length]
        · simp [teleportLoop, hidx, hd, hlt]

theorem teleportLoop_map_proj {α : Type} (target : List (String × ℚ))
    (f : Motor → α) (hf : ∀ m v, f { m with goal_position := v } = f m) :
    ∀ (names : List String) (st : Ergo),
      (teleportLoop target st names).1.motors.map f = st.motors.map f := by
  intro names
  induction names with
  | nil => intro st; rfl
  | cons nm rest ih =>
    intro st
    cases hidx : listIndex nm whitelist with
    | none => simp [teleportLoop, hidx, ih st]
    | some i =>
      cases hd : dictGet target nm with
      | none => simp [teleportLoop, hidx, hd]
      | some v =>
        by_cases hlt : i < st.motors.length
        · simp only [teleportLoop, hidx, hd, hlt, if_pos]
          rw [ih]
          exact modifyAt_map_proj f _ (fun m => hf m v) i st.motors
        · simp [teleportLoop, hidx, hd, hlt]

theorem teleportLoop_get_untouched (target : List (String × ℚ)) :
    ∀ (names : List String) (st : Ergo) (i : Nat),
      (∀ nm ∈ names, listIndex nm whitelist = some i → dictGet target nm = none) →
      (teleportLoop target st names).1.motors[i]? = st.motors[i]? := by
  intro names
  induction names with
  | nil => intro st i _; rfl
  | cons nm rest ih =>
    intro st i h
    cases hidx : listIndex nm whitelist with
    | none =>
      simp only [teleportLoop, hidx]
      exact ih st i fun nm' hm => h nm' (List.mem_cons_of_mem nm hm)
    | some j =>
      cases hd : dictGet target nm with
      | none => simp [teleportLoop, hidx, hd]
      | some v =>
        have hji : j ≠ i := by
          intro hji
          subst hji
          exact absurd hd (by simp [h nm (List.mem_cons_self nm rest) hidx])
        by_cases hlt : j < st.motors.length
        · simp only [teleportLoop, hidx, hd, hlt, if_pos]
          rw [ih _ i fun nm' hm => h nm' (List.mem_cons_of_mem nm hm)]
          exact modifyAt_get_ne _ j i _ hji
        · simp [teleportLoop, hidx, hd, hlt]

theorem teleportLoop_events (target : List (String × ℚ)) :
    ∀ (names : List String) (st : Ergo) (e : Ev),
      e ∈ (teleportLoop target st names).2.1 → ∃ i v, e = Ev.setGoal i v := by
  intro names
  induction names with
  | nil => intro st e h; simp [teleportLoop] at h
  | cons nm rest ih =>
    intro st e h
    cases hidx : listIndex nm whitelist with
    | none =>
      rw [teleportLoop, hidx] at h
      exact ih st e h
    | some i =>
      cases hd : dictGet target nm with
      | none => rw [teleportLoop, hidx, hd] at h; simp at h
      | some v =>
        by_cases hlt : i < st.motors.length
        · rw [teleportLoop, hidx, hd] at h
          simp only [hlt, if_pos] at h
          rcases List.mem_cons.mp h with rfl | h'
          · exact ⟨i, v, rfl⟩
          · exact ih _ e h'
        · rw [teleportLoop, hidx, hd] at h
          simp [hlt] at h

/-- Successful teleport run: when every whitelisted requested name has a
value in the target dict and the robot has (at least) the six motors, the
loop raises nothing and each whitelisted requested joint's motor ends with
its goal position set to the dict value for that name. -/
theorem teleportLoop_ok (target : List (String × ℚ)) :
    ∀ (names : List String) (st : Ergo),
      (∀ nm ∈ names, (listIndex nm whitelist).isSome → (dictGet target nm).isSome) →
      6 ≤ st.motors.length →
      (teleportLoop target st names).2.2 = true ∧
      (∀ nm ∈ names, ∀ i, listIndex nm whitelist = some i →
        ∀ v, dictGet target nm = some v →
          (teleportLoop target st names).1.motors[i]? =
            st.motors[i]?.map fun m => { m with goal_position := v }) := by
  intro names
  induction names with
  | nil =>
    intro st _ _
    exact ⟨rfl, by intro nm h; simp at h⟩
  | cons nm0 rest ih =>
    intro st hdict hlen
    cases hidx : listIndex nm0 whitelist with
    | none =>
      have hrest := ih st (fun nm h => hdict nm (List.mem_cons_of_mem _ h)) hlen
      constructor
      · simpa [teleportLoop, hidx] using hrest.1
      · intro nm hnm i hi v hv
        rcases List.mem_cons.mp hnm with rfl | h'
        · rw [hidx] at hi; cases hi
        · simpa [teleportLoop, hidx] using hrest.2 nm h' i hi v hv
    | some i0 =>
      have hds : (dictGet target nm0).isSome :=
        hdict nm0 (List.mem_cons_self nm0 rest) (by simp [hidx])
      obtain ⟨v0, hd0⟩ := Option.isSome_iff_exists.mp hds
      have hi0lt : i0 < whitelist.length := listIndex_lt hidx
      have hi0len : i0 < st.motors.length :=
        lt_of_lt_of_le (by simpa [whitelist] using hi0lt) hlen
      have hlen1 :
          6 ≤ (Ergo.mk (modifyAt (fun m => { m with goal_position := v0 })
            i0 st.motors)).motors.length := by
        simpa [modifyAt_length] using hlen
      have hrest := ih ⟨modifyAt (fun m => { m with goal_position := v0 }) i0 st.motors⟩
        (fun nm h => hdict nm (List.mem_cons_of_mem _ h)) hlen1
      have hstep : teleportLoop target st (nm0 :: rest) =
          ((teleportLoop target
              ⟨modifyAt (fun m => { m with goal_position := v0 }) i0 st.motors⟩ rest).1,
           Ev.setGoal i0 v0 ::
             (teleportLoop target
               ⟨modifyAt (fun m => { m with goal_position := v0 }) i0 st.motors⟩ rest).2.1,
           (teleportLoop target
             ⟨modifyAt (fun m => { m with goal_position := v0 }) i0 st.motors⟩ rest).2.2) := by
        simp [teleportLoop, hidx, hd0, hi0len]
      constructor
      · rw [hstep]; exact hrest.1
      · intro nm hnm i hi v hv
        rw [hstep]
        show (teleportLoop target
          ⟨modifyAt (fun m => { m with goal_position := v0 }) i0 st.motors⟩ rest).1.motors[i]? = _
        by_cases hmem : nm ∈ rest
        · rw [hrest.2 nm hmem i hi v hv]
          by_cases hii : i = i0
          · subst hii
            obtain rfl : nm = nm0 := listIndex_inj hi hidx
            obtain rfl : v = v0 := Option.some.inj (hv.symm.trans hd0)
            show (modifyAt (fun m => { m with goal_position := v }) i st.motors)[i]?.map _ = _
            rw [modifyAt_get_eq, Option.map_map]
            cases st.motors[i]? <;> rfl
          · show (modifyAt (fun m => { m with goal_position := v0 }) i0 st.motors)[i]?.map _ = _
            rw [modifyAt_get_ne _ i0 i _ fun h => hii h.symm]
        · obtain rfl : nm = nm0 := (List.mem_cons.mp hnm).resolve_right hmem
          have hii : i = i0 := Option.some.inj (hi.symm.trans hidx)
          subst hii
          obtain rfl : v = v0 := Option.some.inj (hv.symm.trans hd0)
          rw [teleportLoop_get_untouched target rest _ i ?hnone]
          case hnone =>
            intro nm' h' hidx'
            obtain rfl : nm' = nm := listIndex_inj hidx' hidx
            exact absurd h' hmem
          exact modifyAt_get_eq _ i st.motors

/-- A six-motor robot state matching the PoppyErgoJr configuration
(motors named m1..m6 in bus order). -/
def ergo6 : Ergo :=
  ⟨[⟨"m1", 0, 100, false⟩, ⟨"m2", 0, 100, false⟩, ⟨"m3", 0, 100, false⟩,
    ⟨"m4", 0, 100, false⟩, ⟨"m5", 0, 100, false⟩, ⟨"m6", 0, 100, false⟩]⟩

theorem gotoTargets_nil_of_setGoal :
    ∀ evs : List Ev, (∀ e ∈ evs, ∃ i v, e = Ev.setGoal i v) →
      gotoTargets evs = [] := by
  intro evs
  induction evs with
  | nil => intro _; rfl
  | cons e rest ih =>
    intro h
    obtain ⟨i, v, rfl⟩ := h e (List.mem_cons_self e rest)
    simp only [gotoTargets, List.filterMap_cons]
    exact ih fun e' he' => h e' (List.mem_cons_of_mem _ he')

theorem speedSets_nil_of_setGoal :
    ∀ evs : List Ev, (∀ e ∈ evs, ∃ i v, e = Ev.setGoal i v) →
      speedSets evs = [] := by
  intro evs
  induction evs with
  | nil => intro _; rfl
  | cons e rest ih =>
    intro h
    obtain ⟨i, v, rfl⟩ := h e (List.mem_cons_self e rest)
    simp only [speedSets, List.filterMap_cons]
    exact ih fun e' he' => h e' (List.mem_cons_of_mem _ he')

theorem gotoTargets_teleport_trace (target : List (String × ℚ))
    (names : List String) (st : Ergo) :
    gotoTargets (Ev.logI LogMsg.teleporting :: Ev.lockAcq ::
      (teleportLoop target st names).2.1 ++ [Ev.lockRel]) = [] := by
  have h0 := gotoTargets_nil_of_setGoal _
    (fun e he => teleportLoop_events target names st e he)
  simp only [gotoTargets, List.filterMap_cons, List.filterMap_append] at h0 ⊢
  simp [h0]

theorem speedSets_teleport_trace (target : List (String × ℚ))
    (names : List String) (st : Ergo) :
    speedSets (Ev.logI LogMsg.teleporting :: Ev.lockAcq ::
      (teleportLoop target st names).2.1 ++ [Ev.lockRel]) = [] := by
  have h0 := speedSets_nil_of_setGoal _
    (fun e he => teleportLoop_events target names st e he)
  simp only [speedSets, List.filterMap_cons, List.filterMap_append] at h0 ⊢
  simp [h0]

theorem gotoTargets_setSpeed_evs :
    ∀ l : List Nat, gotoTargets (l.map fun i => Ev.setSpeed i 100) = [] := by
  intro l
  induction l with
  | nil => rfl
  | cons i rest ih => simp [gotoTargets, List.filterMap_cons, ih]

theorem gotoDurations_setSpeed_evs :
    ∀ l : List Nat, gotoDurations (l.map fun i => Ev.setSpeed i 100) = [] := by
  intro l
  induction l with
  | nil => rfl
  | cons i rest ih => simp [gotoDurations, List.filterMap_cons, ih]

theorem map_proj_over_update {α : Type} (f : Motor → α) (u : Motor → Motor)
    (h : ∀ m, f (u m) = f m) :
    ∀ l : List Motor, (l.map u).map f = l.map f := by
  intro l
  induction l with
  | nil => rfl
  | cons m rest ih => simp [h, ih]

theorem map_proj_const {α : Type} (f : Motor → α) (u : Motor → Motor) (c : α)
    (h : ∀ m, f (u m) = c) :
    ∀ l : List Motor, (l.map u).map f = List.replicate l.length c := by
  intro l
  induction l with
  | nil => rfl
  | cons m rest ih => simp [h, ih, List.replicate_succ]

/-! ### Claims about `_cb_reach`, `_cb_set_compliant` and startup -/

/-- C4 counterexample: a reach request with duration 0 whose name list is
longer than its position list.  `dict(zip(['m1'], []))` is empty, so
`target['m1']` raises `KeyError` inside the handler: the whitelisted name
"m1" gets no goal write and the handler does not return the success
acknowledgment, contradicting the claim as stated. -/
theorem c4_reach_teleport_counterexample :
    ((⟨["m1"], [], 0⟩ : ReachRequest).duration ≤ 0) ∧
    (cb_reach (fun _ _ s => s) ⟨["m1"], [], 0⟩ ergo6).2.2 = false ∧
    (cb_reach (fun _ _ s => s) ⟨["m1"], [], 0⟩ ergo6).1 = ergo6 := by
  refine ⟨by norm_num, ?_, ?_⟩ <;> decide

/-- C4 (amended): for every reach request with duration ≤ 0 whose name
list is no longer than its position list (so every name is bound in the
zipped target dict), each requested joint name present in the whitelist
gets the corresponding motor's goal position set directly to the
requested (dict) value, names outside the whitelist are silently ignored,
the handler issues no goto command, and it returns success.  The robot is
assumed to expose (at least) the six whitelisted motors. -/
theorem c4_reach_teleport_sets_whitelisted
    (gotoEff : List (String × ℚ) → ℚ → Ergo → Ergo) (req : ReachRequest)
    (st : Ergo) (hdur : req.duration ≤ 0)
    (hlen : req.name.length ≤ req.position.length)
    (hm : 6 ≤ st.motors.length) :
    (cb_reach gotoEff req st).2.2 = true ∧
    (∀ nm ∈ req.name, ∀ i, listIndex nm whitelist = some i →
      ∃ v, dictGet (req.name.zip req.position) nm = some v ∧
        (cb_reach gotoEff req st).1.motors[i]? =
          st.motors[i]?.map fun m => { m with goal_position := v }) ∧
    gotoTargets (cb_reach gotoEff req st).2.1 = [] := by
  have hdict : ∀ nm ∈ req.name, (listIndex nm whitelist).isSome →
      (dictGet (req.name.zip req.position) nm).isSome :=
    fun nm hnm _ => dictGet_zip_isSome req.name req.position nm hlen hnm
  obtain ⟨hok, hset⟩ := teleportLoop_ok (req.name.zip req.position) req.name st hdict hm
  have hbranch : cb_reach gotoEff req st =
      ((teleportLoop (req.name.zip req.position) st req.name).1,
       Ev.logI LogMsg.teleporting :: Ev.lockAcq ::
         (teleportLoop (req.name.zip req.position) st req.name).2.1 ++ [Ev.lockRel],
       (teleportLoop (req.name.zip req.position) st req.name).2.2) := by
    simp [cb_reach, hdur]
  refine ⟨?_, ?_, ?_⟩
  · rw [hbranch]; exact hok
  · intro nm hnm i hi
    obtain ⟨v, hv⟩ := Option.isSome_iff_exists.mp (hdict nm hnm (by simp [hi]))
    refine ⟨v, hv, ?_⟩
    rw [hbranch]
    exact hset nm hnm i hi v hv
  · rw [hbranch]
    exact gotoTargets_teleport_trace _ _ _

/-- C4 witness: request `{"m1": 10, "foo": 3}` with duration 0 on the
six-motor robot succeeds, sets motor m1's goal position to 10 and ignores
the unknown name "foo". -/
theorem c4_reach_teleport_sets_whitelisted_witness :
    (cb_reach (fun _ _ s => s) ⟨["m1", "foo"], [10, 3], 0⟩ ergo6).2.2 = true ∧
    (cb_reach (fun _ _ s => s) ⟨["m1", "foo"], [10, 3], 0⟩ ergo6).1.motors[0]? =
      some ⟨"m1", 10, 100, false⟩ ∧
    gotoTargets (cb_reach (fun _ _ s => s) ⟨["m1", "foo"], [10, 3], 0⟩ ergo6).2.1 = [] := by
  have h := c4_reach_teleport_sets_whitelisted (fun _ _ s => s)
    ⟨["m1", "foo"], [10, 3], 0⟩ ergo6 (by norm_num) (by norm_num) (by norm_num [ergo6])
  refine ⟨h.1, ?_, h.2.2⟩
  obtain ⟨v, hv, hset⟩ := h.2.1 "m1" (by simp) 0 (by decide)
  have hv10 : v = 10 := by
    have : dictGet ((["m1", "foo"] : List String).zip ([10, 3] : List ℚ)) "m1" =
        some 10 := by decide
    rw [this] at hv
    exact (Option.some.inj hv).symm
  subst hv10
  rw [hset]
  decide

/-- C10: the teleport branch of `_cb_reach` (duration ≤ 0) never calls the
goto primitive and never resets speeds: every motor's `moving_speed` (and
compliance flag) is unchanged, and any motor whose name is not a key of
the request's target mapping keeps its exact previous state.  The robot's
motors are assumed to be named m1..m6 in whitelist order (the PoppyErgoJr
configuration), since the code addresses motors by whitelist position. -/
theorem c10_reach_teleport_frame
    (gotoEff : List (String × ℚ) → ℚ → Ergo → Ergo) (req : ReachRequest)
    (st : Ergo) (hdur : req.duration ≤ 0)
    (hwl : st.motors.map Motor.name = whitelist) :
    (cb_reach gotoEff req st).1.motors.map Motor.moving_speed =
        st.motors.map Motor.moving_speed ∧
    (cb_reach gotoEff req st).1.motors.map Motor.compliant =
        st.motors.map Motor.compliant ∧
    (∀ (i : Nat) (m : Motor), st.motors[i]? = some m →
        dictGet (req.name.zip req.position) m.name = none →
        (cb_reach gotoEff req st).1.motors[i]? = some m) ∧
    gotoTargets (cb_reach gotoEff req st).2.1 = [] ∧
    speedSets (cb_reach gotoEff req st).2.1 = [] := by
  have hbranch : cb_reach gotoEff req st =
      ((teleportLoop (req.name.zip req.position) st req.name).1,
       Ev.logI LogMsg.teleporting :: Ev.lockAcq ::
         (teleportLoop (req.name.zip req.position) st req.name).2.1 ++ [Ev.lockRel],
       (teleportLoop (req.name.zip req.position) st req.name).2.2) := by
    simp [cb_reach, hdur]
  refine ⟨?_, ?_, ?_, ?_, ?_⟩
  · rw [hbranch]
    exact teleportLoop_map_proj _ Motor.moving_speed (fun m v => rfl) req.name st
  · rw [hbranch]
    exact teleportLoop_map_proj _ Motor.compliant (fun m v => rfl) req.name st
  · intro i m hm hd
    rw [hbranch]
    show (teleportLoop (req.name.zip req.position) st req.name).1.motors[i]? = some m
    rw [teleportLoop_get_untouched _ req.name st i ?hnone]
    · exact hm
    case hnone =>
      intro nm' h' hidx'
      have h1 : whitelist[i]? = some nm' := listIndex_get _ nm' i hidx'
      have h2 : whitelist[i]? = some m.name := by
        rw [← hwl]
        simp [List.getElem?_map, hm]
      rw [h2] at h1
      obtain rfl : m.name = nm' := Option.some.inj h1
      exact hd
  · rw [hbranch]
    exact gotoTargets_teleport_trace _ _ _
  · rw [hbranch]
    exact speedSets_teleport_trace _ _ _

/-- C10 witness: teleporting `{"m2": 42}` on the six-motor robot leaves
all speeds at 100, leaves motor m1 untouched, and issues neither a goto
nor a speed reset. -/
theorem c10_reach_teleport_frame_witness :
    (cb_reach (fun _ _ s => s) ⟨["m2"], [42], 0⟩ ergo6).1.motors.map Motor.moving_speed =
      ergo6.motors.map Motor.moving_speed ∧
    (cb_reach (fun _ _ s => s) ⟨["m2"], [42], 0⟩ ergo6).1.motors[0]? =
      some ⟨"m1", 0, 100, false⟩ ∧
    gotoTargets (cb_reach (fun _ _ s => s) ⟨["m2"], [42], 0⟩ ergo6).2.1 = [] ∧
    speedSets (cb_reach (fun _ _ s => s) ⟨["m2"], [42], 0⟩ ergo6).2.1 = [] := by
  have h := c10_reach_teleport_frame (fun _ _ s => s) ⟨["m2"], [42], 0⟩ ergo6
    (by norm_num) (by decide)
  refine ⟨h.1, ?_, h.2.2.2.1, h.2.2.2.2⟩
  exact h.2.2.1 0 ⟨"m1", 0, 100, false⟩ (by decide) (by decide)

/-- C5: for every reach request with duration > 0 the handler delegates
the whole zipped joint-name/position mapping to the goto primitive with
exactly that duration (one goto command, nothing else), then resets every
motor's maximum speed to the default 100 — whatever state effect the
external goto primitive had — and returns success. -/
theorem c5_reach_goto_delegates_and_resets_speed
    (gotoEff : List (String × ℚ) → ℚ → Ergo → Ergo) (req : ReachRequest)
    (st : Ergo) (hdur : 0 < req.duration) :
    (cb_reach gotoEff req st).2.2 = true ∧
    gotoTargets (cb_reach gotoEff req st).2.1 = [req.name.zip req.position] ∧
    gotoDurations (cb_reach gotoEff req st).2.1 = [req.duration] ∧
    (cb_reach gotoEff req st).1.motors.map Motor.moving_speed =
      List.replicate (cb_reach gotoEff req st).1.motors.length (100 : ℚ) := by
  have hneg : ¬(req.duration ≤ 0) := not_le.mpr hdur
  have hbranch : cb_reach gotoEff req st =
      ((reset_max_speed (gotoEff (req.name.zip req.position) req.duration st)).1,
       Ev.logI LogMsg.reaching :: Ev.lockAcq ::
         Ev.gotoPos (req.name.zip req.position) req.duration ::
         (reset_max_speed (gotoEff (req.name.zip req.position) req.duration st)).2 ++
           [Ev.lockRel],
       true) := by
    simp [cb_reach, hneg]
  refine ⟨?_, ?_, ?_, ?_⟩
  · rw [hbranch]
  · rw [hbranch]
    simp only [gotoTargets, List.filterMap_cons, List.filterMap_append]
    have := gotoTargets_setSpeed_evs
      (List.range (gotoEff (req.name.zip req.position) req.duration st).motors.length)
    simp only [gotoTargets, reset_max_speed] at this ⊢
    simp [this]
  · rw [hbranch]
    simp only [gotoDurations, List.filterMap_cons, List.filterMap_append]
    have := gotoDurations_setSpeed_evs
      (List.range (gotoEff (req.name.zip req.position) req.duration st).motors.length)
    simp only [gotoDurations, reset_max_speed] at this ⊢
    simp [this]
  · rw [hbranch]
    show (reset_max_speed _).1.motors.map Motor.moving_speed =
      List.replicate (reset_max_speed _).1.motors.length (100 : ℚ)
    simp only [reset_max_speed, List.length_map]
    exact map_proj_const Motor.moving_speed _ 100 (fun m => rfl) _

/-- C5 witness: reaching `{"m1": 5}` in 1 s issues the single goto and
leaves every motor's max speed at 100. -/
theorem c5_reach_goto_delegates_and_resets_speed_witness :
    (cb_reach (fun _ _ s => s) ⟨["m1"], [5], 1⟩ ergo6).2.2 = true ∧
    gotoTargets (cb_reach (fun _ _ s => s) ⟨["m1"], [5], 1⟩ ergo6).2.1 =
      [[("m1", (5 : ℚ))]] ∧
    gotoDurations (cb_reach (fun _ _ s => s) ⟨["m1"], [5], 1⟩ ergo6).2.1 = [(1 : ℚ)] ∧
    (cb_reach (fun _ _ s => s) ⟨["m1"], [5], 1⟩ ergo6).1.motors.map Motor.moving_speed =
      List.replicate 6 (100 : ℚ) := by
  have h := c5_reach_goto_delegates_and_resets_speed (fun _ _ s => s)
    ⟨["m1"], [5], 1⟩ ergo6 (by norm_num)
  refine ⟨h.1, ?_, ?_, ?_⟩
  · simpa using h.2.1
  · simpa using h.2.2.1
  · simpa [ergo6] using h.2.2.2

/-- C6: `set_compliant` sets every motor's compliance flag to the request
boolean — all motors (the compliance list becomes a constant list of the
same length), none skipped, all other motor fields untouched — and always
returns a success acknowledgment, for either flag value. -/
theorem c6_set_compliant_all_motors (b : Bool) (st : Ergo) :
    (cb_set_compliant b st).1.motors.map Motor.compliant =
        List.replicate st.motors.length b ∧
    (cb_set_compliant b st).1.motors.map Motor.name = st.motors.map Motor.name ∧
    (cb_set_compliant b st).1.motors.map Motor.goal_position =
        st.motors.map Motor.goal_position ∧
    (cb_set_compliant b st).1.motors.map Motor.moving_speed =
        st.motors.map Motor.moving_speed ∧
    (cb_set_compliant b st).2.2 = true := by
  refine ⟨?_, ?_, ?_, ?_, rfl⟩
  · exact map_proj_const Motor.compliant (fun m => { m with compliant := b }) b
      (fun m => rfl) st.motors
  · exact map_proj_over_update Motor.name (fun m => { m with compliant := b })
      (fun m => rfl) st.motors
  · exact map_proj_over_update Motor.goal_position (fun m => { m with compliant := b })
      (fun m => rfl) st.motors
  · exact map_proj_over_update Motor.moving_speed (fun m => { m with compliant := b })
      (fun m => rfl) st.motors

/-- C8: startup is all-or-nothing.  The node ends up running exactly when
the config file is readable with its `publish_rate` key, the robot
description parameters are present and the hardware adapter initializes;
any failing precondition makes the process exit, always with a non-zero
status (1 for an uncaught `__init__` exception, -1 via `exit(-1)`), so no
startup failure is silently ignored. -/
theorem c8_startup_failures_fatal (env : StartEnv) :
    (startup env = StartResult.running ↔
      env.config_file_ok = true ∧ env.has_publish_rate = true ∧
      env.has_description = true ∧ env.has_description_file = true ∧
      env.hw_init_ok = true) ∧
    (∀ c : Int, startup env = StartResult.exit c → c ≠ 0) := by
  obtain ⟨a, b, c, d, e⟩ := env
  cases a <;> cases b <;> cases c <;> cases d <;> cases e <;> simp [startup]

/-- C8 witness: the fully healthy environment reaches the running state,
and the environment with an unreadable config file exits with status 1,
which the theorem certifies to be non-zero. -/
theorem c8_startup_failures_fatal_witness :
    startup ⟨true, true, true, true, true⟩ = StartResult.running ∧
    startup ⟨false, true, true, true, true⟩ = StartResult.exit 1 ∧
    (1 : Int) ≠ 0 := by
  refine ⟨?_, rfl, ?_⟩
  · exact (c8_startup_failures_fatal ⟨true, true, true, true, true⟩).1.mpr
      ⟨rfl, rfl, rfl, rfl, rfl⟩
  · exact (c8_startup_failures_fatal ⟨false, true, true, true, true⟩).2 1 rfl

/-! ### Lock-level structure of the handler traces -/

theorem lockAbs_setGoal_evs :
    ∀ evs : List Ev, (∀ e ∈ evs, ∃ i v, e = Ev.setGoal i v) →
      lockAbs evs = List.replicate evs.length LEvent.touch := by
  intro evs
  induction evs with
  | nil => intro _; rfl
  | cons e rest ih =>
    intro h
    obtain ⟨i, v, rfl⟩ := h e (List.mem_cons_self e rest)
    simp only [lockAbs, List.filterMap_cons, List.length_cons, List.replicate_succ]
    rw [← ih fun e' he' => h e' (List.mem_cons_of_mem _ he')]
    rfl

theorem lockAbs_setSpeed_range :
    ∀ l : List Nat,
      lockAbs (l.map fun i => Ev.setSpeed i 100) =
        List.replicate l.length LEvent.touch := by
  intro l
  induction l with
  | nil => rfl
  | cons i rest ih =>
    simp only [List.map_cons, lockAbs, List.filterMap_cons, List.length_cons,
      List.replicate_succ]
    rw [← ih]
    rfl

theorem lockAbs_setCompliant_range (b : Bool) :
    ∀ l : List Nat,
      lockAbs (l.map fun i => Ev.setCompliantFlag i b) =
        List.replicate l.length LEvent.touch := by
  intro l
  induction l with
  | nil => rfl
  | cons i rest ih =>
    simp only [List.map_cons, lockAbs, List.filterMap_cons, List.length_cons,
      List.replicate_succ]
    rw [← ih]
    rfl

/-- The waypoint loop emits only hardware mutations at the lock level. -/
theorem lockAbs_execRun (tm : ℚ) (names : List String) (shut intr : Nat → Bool)
    (n : Nat) :
    ∀ (ps : List TrajPoint) (i : Nat) (t : ℚ),
      ∃ k, lockAbs (execRun tm names shut intr n i t ps).1 =
        List.replicate k LEvent.touch := by
  intro ps
  induction ps with
  | nil => intro i t; exact ⟨0, rfl⟩
  | cons p rest ih =>
    intro i t
    by_cases hs : shut i = true
    · exact ⟨0, by simp [execRun, hs, lockAbs]⟩
    · rw [Bool.not_eq_true] at hs
      by_cases hd : p.time_from_start - t < 0
      · obtain ⟨k, hk⟩ := ih (i + 1) t
        refine ⟨k, ?_⟩
        simp only [execRun, hs, hd, if_true, if_false, Bool.false_eq_true]
        simpa [lockAbs, List.filterMap_cons] using hk
      · by_cases hi : intr i = true
        · exact ⟨1, by simp [execRun, hs, hd, hi, lockAbs]⟩
        · rw [Bool.not_eq_true] at hi
          obtain ⟨k, hk⟩ := ih (i + 1) p.time_from_start
          refine ⟨k + 1, ?_⟩
          simp only [execRun, hs, hd, hi, if_false, Bool.false_eq_true,
            List.replicate_succ]
          simpa [lockAbs, List.filterMap_cons] using hk

theorem lockAbs_teleport_trace (target : List (String × ℚ)) (names : List String)
    (st : Ergo) :
    lockAbs (Ev.logI LogMsg.teleporting :: Ev.lockAcq ::
        (teleportLoop target st names).2.1 ++ [Ev.lockRel]) =
      LEvent.acq ::
        List.replicate (teleportLoop target st names).2.1.length LEvent.touch ++
        [LEvent.rel] := by
  have h0 := lockAbs_setGoal_evs _ (fun e he => teleportLoop_events target names st e he)
  simp only [lockAbs, List.filterMap_cons, List.filterMap_append] at h0 ⊢
  rw [h0]
  rfl

/-- Every `_cb_reach` call has the single-critical-section shape at the
lock level: one acquire, then only hardware mutations, then one release
(in both branches, also when the teleport loop stops on an exception). -/
theorem singleCS_cb_reach (gotoEff : List (String × ℚ) → ℚ → Ergo → Ergo)
    (req : ReachRequest) (st : Ergo) :
    SingleCS (lockAbs (cb_reach gotoEff req st).2.1) := by
  by_cases hdur : req.duration ≤ 0
  · refine ⟨(teleportLoop (req.name.zip req.position) st req.name).2.1.length, ?_⟩
    simp only [cb_reach, if_pos hdur]
    exact lockAbs_teleport_trace _ _ _
  · refine ⟨(gotoEff (req.name.zip req.position) req.duration st).motors.length + 1, ?_⟩
    simp only [cb_reach, if_neg hdur, reset_max_speed]
    have h0 := lockAbs_setSpeed_range
      (List.range (gotoEff (req.name.zip req.position) req.duration st).motors.length)
    simp only [lockAbs, List.filterMap_cons, List.filterMap_append] at h0 ⊢
    rw [h0]
    simp [List.replicate_succ]

/-- Every `execute` run has the single-critical-section shape at the lock
level: one acquire, then only goto mutations, then one release (for every
shutdown behaviour and outcome). -/
theorem singleCS_executeTraj (tm : ℚ) (shut intr : Nat → Bool) (traj : Trajectory) :
    SingleCS (lockAbs (executeTraj tm shut intr traj).1) := by
  obtain ⟨k, hk⟩ :=
    lockAbs_execRun tm traj.joint_names shut intr traj.points.length traj.points 0 0
  refine ⟨k, ?_⟩
  simp only [executeTraj, lockAbs, List.filterMap_cons, List.filterMap_append] at hk ⊢
  rw [hk]
  cases (execRun tm traj.joint_names shut intr traj.points.length 0 0 traj.points).2.1 <;>
    simp [endLog]

/-- Every `_cb_set_compliant` call has the single-critical-section shape
at the lock level. -/
theorem singleCS_cb_set_compliant (b : Bool) (st : Ergo) :
    SingleCS (lockAbs (cb_set_compliant b st).2.1) := by
  refine ⟨st.motors.length, ?_⟩
  have h0 := lockAbs_setCompliant_range b (List.range st.motors.length)
  simp only [cb_set_compliant]
  simp only [lockAbs, List.filterMap_cons, List.filterMap_append] at h0 ⊢
  rw [h0]
  cases b <;> simp

/-! ### Mutual exclusion of the two-thread lock semantics -/

theorem singleCS_acq_tail {l rest : List LEvent} (h : SingleCS l)
    (he : l = LEvent.acq :: rest) : midCS rest := by
  obtain ⟨n, hn⟩ := h
  rw [he] at hn
  exact ⟨n, (List.cons.inj hn).2⟩

theorem not_singleCS_touch {l rest : List LEvent} (h : SingleCS l) :
    l ≠ LEvent.touch :: rest := by
  obtain ⟨n, hn⟩ := h
  intro he
  rw [he] at hn
  simp at hn

theorem not_midCS_acq {l rest : List LEvent} (h : midCS l) :
    l ≠ LEvent.acq :: rest := by
  obtain ⟨n, hn⟩ := h
  intro he
  rw [he] at hn
  cases n with
  | zero => simp at hn
  | succ k => simp [List.replicate_succ] at hn

theorem midCS_rel_tail {l rest : List LEvent} (h : midCS l)
    (he : l = LEvent.rel :: rest) : rest = [] := by
  obtain ⟨n, hn⟩ := h
  rw [he] at hn
  cases n with
  | zero => simpa using (List.cons.inj hn).2
  | succ k => simp [List.replicate_succ] at hn

theorem midCS_touch_tail {l rest : List LEvent} (h : midCS l)
    (he : l = LEvent.touch :: rest) : midCS rest := by
  obtain ⟨n, hn⟩ := h
  rw [he] at hn
  cases n with
  | zero => simp at hn
  | succ k => exact ⟨k, by simpa [List.replicate_succ] using (List.cons.inj hn).2⟩

theorem headBlk_nil (t : Bool) : HeadBlk t [] := ⟨0, 0, rfl⟩

theorem headBlk_cons {t : Bool} {l : List Bool} (h : HeadBlk t l) :
    HeadBlk t (t :: l) := by
  obtain ⟨a, b, rfl⟩ := h
  exact ⟨a + 1, b, by simp [List.replicate_succ]⟩

theorem twoBlk_of_headBlk {t : Bool} {l : List Bool} (h : HeadBlk t l) :
    TwoBlk l := by
  cases t
  · exact Or.inr h
  · exact Or.inl h

theorem twoBlk_nil : TwoBlk [] := Or.inl (headBlk_nil true)

theorem headBlk_of_twoBlk_notMem {t : Bool} {l : List Bool}
    (h : TwoBlk l) (hm : t ∉ l) : HeadBlk t l := by
  have key : ∀ u, HeadBlk u l → HeadBlk t l := by
    intro u hu
    obtain ⟨a, b, rfl⟩ := hu
    by_cases hut : u = t
    · subst hut
      have ha : a = 0 := by
        by_contra hne
        exact hm (List.mem_append_left _ (List.mem_replicate.mpr ⟨hne, rfl⟩))
      subst ha
      exact ⟨0, b, by simp⟩
    · have hu2 : u = !t := by cases u <;> cases t <;> simp_all
      subst hu2
      have hb : b = 0 := by
        by_contra hne
        refine hm (List.mem_append_right _ (List.mem_replicate.mpr ⟨hne, ?_⟩))
        cases t <;> rfl
      subst hb
      exact ⟨0, a, by simp⟩
  rcases h with h | h
  · exact key true h
  · exact key false h

theorem touchSeq_cons_touch (t : Bool) (tr : List (Bool × LEvent)) :
    touchSeq ((t, LEvent.touch) :: tr) = t :: touchSeq tr := by
  simp [touchSeq]

theorem touchSeq_cons_acq (t : Bool) (tr : List (Bool × LEvent)) :
    touchSeq ((t, LEvent.acq) :: tr) = touchSeq tr := by
  simp [touchSeq]

theorem touchSeq_cons_rel (t : Bool) (tr : List (Bool × LEvent)) :
    touchSeq ((t, LEvent.rel) :: tr) = touchSeq tr := by
  simp [touchSeq]

theorem updRem_self (rem : Bool → List LEvent) (t : Bool) (l : List LEvent) :
    updRem rem t l t = l := by
  simp [updRem]

theorem updRem_other (rem : Bool → List LEvent) (t : Bool) (l : List LEvent)
    {u : Bool} (h : u ≠ t) : updRem rem t l u = rem u := by
  simp [updRem, h]


/-- Main interleaving lemma: starting from any configuration satisfying
the lock invariant, a finished thread never mutates again; when the lock
is free the two threads' mutations form two contiguous blocks; and when a
thread owns the lock, all of its remaining mutations come before any of
the other thread's. -/
theorem runTr_touch_blocks {c c2 : Conf} {tr : List (Bool × LEvent)}
    (hrun : RunTr c tr c2) :
    LockInv c →
    (∀ t, c.rem t = [] → t ∉ touchSeq tr) ∧
    (c.owner = none → TwoBlk (touchSeq tr)) ∧
    (∀ t, c.owner = some t → HeadBlk t (touchSeq tr)) := by
  induction hrun with
  | nil c0 =>
    intro _
    exact ⟨fun t _ => by simp [touchSeq], fun _ => twoBlk_nil, fun t _ => headBlk_nil t⟩
  | cons hstep hnext ih =>
    rename_i cA cB cC ev trt
    intro hinv
    obtain ⟨hfree, hheld⟩ := hinv
    cases hstep with
    | acqFree t rest hrem hown =>
      have hcs : SingleCS (cA.rem t) := by
        rcases hfree hown t with hcs | hnil
        · exact hcs
        · rw [hrem] at hnil; cases hnil
      have hmid : midCS rest := singleCS_acq_tail hcs hrem
      have hinv1 : LockInv ⟨updRem cA.rem t rest, some t, 1⟩ := by
        constructor
        · intro h0; exact Option.noConfusion h0
        · intro u hu
          dsimp only at hu ⊢
          obtain rfl : t = u := Option.some.inj hu
          refine ⟨rfl, ?_, ?_⟩
          · rw [updRem_self]; exact hmid
          · rw [updRem_other _ _ _ (Bool.not_ne_self t)]
            exact hfree hown (!t)
      obtain ⟨ihdone, _, ihheld⟩ := ih hinv1
      dsimp only at ihdone ihheld
      refine ⟨?_, ?_, ?_⟩
      · intro u hu
        have hut : u ≠ t := by
          intro h; subst h; rw [hrem] at hu; cases hu
        rw [touchSeq_cons_acq]
        exact ihdone u (by rw [updRem_other _ _ _ hut]; exact hu)
      · intro _
        rw [touchSeq_cons_acq]
        exact twoBlk_of_headBlk (ihheld t rfl)
      · intro u hu
        rw [hown] at hu
        exact Option.noConfusion hu
    | acqReent t rest hrem hown =>
      exact absurd hrem (not_midCS_acq (hheld t hown).2.1)
    | relInner t rest hrem hown hdep =>
      have := (hheld t hown).1
      omega
    | relLast t rest hrem hown hdep =>
      obtain ⟨_, hmid, hoth⟩ := hheld t hown
      obtain rfl : rest = [] := midCS_rel_tail hmid hrem
      have hinv1 : LockInv ⟨updRem cA.rem t [], none, 0⟩ := by
        constructor
        · intro _ u
          dsimp only
          by_cases hut : u = t
          · subst hut; rw [updRem_self]; exact Or.inr rfl
          · rw [updRem_other _ _ _ hut]
            have hu2 : u = !t := by cases u <;> cases t <;> simp_all
            subst hu2
            exact hoth
        · intro u hu; exact Option.noConfusion hu
      obtain ⟨ihdone, ihfree, _⟩ := ih hinv1
      dsimp only at ihdone ihfree
      refine ⟨?_, ?_, ?_⟩
      · intro u hu
        have hut : u ≠ t := by
          intro h; subst h; rw [hrem] at hu; cases hu
        rw [touchSeq_cons_rel]
        exact ihdone u (by rw [updRem_other _ _ _ hut]; exact hu)
      · intro h0
        rw [hown] at h0
        exact Option.noConfusion h0
      · intro u hu
        obtain rfl : t = u := Option.some.inj (hown.symm.trans hu)
        rw [touchSeq_cons_rel]
        have hnot : t ∉ touchSeq trt := ihdone t (updRem_self _ _ _)
        exact headBlk_of_twoBlk_notMem (ihfree rfl) hnot
    | touch t rest hrem =>
      rcases hoc : cA.owner with _ | u
      · rcases hfree hoc t with hcs | hnil
        · exact absurd hrem (not_singleCS_touch hcs)
        · rw [hrem] at hnil; cases hnil
      · obtain ⟨hd1, hmid, hoth⟩ := hheld u hoc
        by_cases hut : t = u
        · subst hut
          have hmid2 : midCS rest := midCS_touch_tail hmid hrem
          have hinv1 : LockInv ⟨updRem cA.rem t rest, cA.owner, cA.depth⟩ := by
            constructor
            · intro h0
              dsimp only at h0
              rw [hoc] at h0
              exact Option.noConfusion h0
            · intro u' hu'
              dsimp only at hu' ⊢
              rw [hoc] at hu'
              obtain rfl : t = u' := Option.some.inj hu'
              refine ⟨hd1, ?_, ?_⟩
              · rw [updRem_self]; exact hmid2
              · rw [updRem_other _ _ _ (Bool.not_ne_self t)]
                exact hoth
          obtain ⟨ihdone, _, ihheld⟩ := ih hinv1
          dsimp only at ihdone ihheld
          refine ⟨?_, ?_, ?_⟩
          · intro u' hu'
            have hut' : u' ≠ t := by
              intro h; subst h; rw [hrem] at hu'; cases hu'
            rw [touchSeq_cons_touch]
            have hni := ihdone u' (by rw [updRem_other _ _ _ hut']; exact hu')
            simp [List.mem_cons, hut', hni]
          · intro h0
            exact Option.noConfusion h0
          · intro u' hu'
            obtain rfl : t = u' := Option.some.inj hu'
            rw [touchSeq_cons_touch]
            exact headBlk_cons (ihheld t hoc)
        · have ht2 : t = !u := by cases t <;> cases u <;> simp_all
          rw [ht2] at hrem
          rcases hoth with hcs | hnil
          · exact absurd hrem (not_singleCS_touch hcs)
          · rw [hrem] at hnil; cases hnil

/-- C9: at most one in-flight mutating command touches the hardware
adapter at a time.  Each of the three mutating handlers (`reach`,
`execute`, `set_compliant`) has, at the lock level, a single critical
section: one acquire of the shared lock first, then all of its hardware
mutations, then one release.  Consequently, in the two-thread lock
semantics, for any two such single-critical-section commands started
concurrently, every interleaving the lock admits keeps their hardware
mutations in two contiguous blocks — the second command's mutations all
wait until the first one's lock-held section completes.  (Read-only
publishing takes no lock and is outside this property.) -/
theorem c9_single_lock_mutual_exclusion :
    (∀ (gotoEff : List (String × ℚ) → ℚ → Ergo → Ergo) (req : ReachRequest)
       (st : Ergo), SingleCS (lockAbs (cb_reach gotoEff req st).2.1)) ∧
    (∀ (tm : ℚ) (shut intr : Nat → Bool) (traj : Trajectory),
      SingleCS (lockAbs (executeTraj tm shut intr traj).1)) ∧
    (∀ (b : Bool) (st : Ergo), SingleCS (lockAbs (cb_set_compliant b st).2.1)) ∧
    (∀ (lA lB : List LEvent) (tr : List (Bool × LEvent)) (cf : Conf),
      SingleCS lA → SingleCS lB → RunTr (initConf lA lB) tr cf →
      TwoBlk (touchSeq tr)) := by
  refine ⟨singleCS_cb_reach, singleCS_executeTraj, singleCS_cb_set_compliant, ?_⟩
  intro lA lB tr cf hA hB hrun
  have hinv : LockInv (initConf lA lB) := by
    constructor
    · intro _ t
      cases t
      · exact Or.inl hB
      · exact Or.inl hA
    · intro t ht
      exact Option.noConfusion ht
  exact (runTr_touch_blocks hrun hinv).2.1 rfl

/-- C9 witness: two concurrent single-critical-section commands (each
`acquire; mutate; release`), scheduled first-thread-completely-then-second,
form an admissible run whose mutation sequence is two contiguous blocks. -/
theorem c9_single_lock_mutual_exclusion_witness :
    SingleCS [LEvent.acq, LEvent.touch, LEvent.rel] ∧
    (∃ cf : Conf,
      RunTr (initConf [LEvent.acq, LEvent.touch, LEvent.rel]
          [LEvent.acq, LEvent.touch, LEvent.rel])
        [(true, LEvent.acq), (true, LEvent.touch), (true, LEvent.rel),
         (false, LEvent.acq), (false, LEvent.touch), (false, LEvent.rel)] cf) ∧
    TwoBlk (touchSeq
      [(true, LEvent.acq), (true, LEvent.touch), (true, LEvent.rel),
       (false, LEvent.acq), (false, LEvent.touch), (false, LEvent.rel)]) := by
  obtain ⟨cf, hrun⟩ :
      ∃ cf : Conf,
        RunTr (initConf [LEvent.acq, LEvent.touch, LEvent.rel]
            [LEvent.acq, LEvent.touch, LEvent.rel])
          [(true, LEvent.acq), (true, LEvent.touch), (true, LEvent.rel),
           (false, LEvent.acq), (false, LEvent.touch), (false, LEvent.rel)] cf := by
    exact ⟨_, RunTr.cons (LStep.acqFree _ true [LEvent.touch, LEvent.rel] rfl rfl)
      (RunTr.cons (LStep.touch _ true [LEvent.rel] rfl)
        (RunTr.cons (LStep.relLast _ true [] rfl rfl rfl)
          (RunTr.cons (LStep.acqFree _ false [LEvent.touch, LEvent.rel] rfl rfl)
            (RunTr.cons (LStep.touch _ false [LEvent.rel] rfl)
              (RunTr.cons (LStep.relLast _ false [] rfl rfl rfl)
                (RunTr.nil _))))))⟩
  refine ⟨⟨1, rfl⟩, ⟨cf, hrun⟩, ?_⟩
  exact c9_single_lock_mutual_exclusion.2.2.2 _ _ _ cf ⟨1, rfl⟩ ⟨1, rfl⟩ hrun

/-- C7 witness: with shutdown observed at the first boundary the loop
emits nothing; with the first sleep interrupted only that waypoint's goto
and sleep are emitted and the outcome is interrupted with the abort
warning logged; the execute callback acknowledges success regardless. -/
theorem c7_shutdown_stops_executor_witness :
    execRun 0 ["m1"] (fun _ => true) noSignal 1 0 0 [⟨[1], 1⟩] =
      ([], Outcome.finished, 0) ∧
    execRun 0 ["m1"] noSignal (fun _ => true) 1 0 0 [⟨[1], 1⟩] =
      ([Ev.gotoPos [("m1", 1)] 1, Ev.sleep (1 - 1 / 1000)],
       Outcome.interrupted, 0) ∧
    Ev.logW LogMsg.aborted ∈
      (executeTraj 0 noSignal (fun _ => true) ⟨["m1"], [⟨[1], 1⟩]⟩).1 ∧
    cb_execute_ack ⟨["m1"], [⟨[1], 1⟩]⟩ = true := by
  have h := c7_shutdown_stops_executor 0 ["m1"] (fun _ => true) noSignal 1 0 0
    ⟨[1], 1⟩ [] ⟨["m1"], [⟨[1], 1⟩]⟩
  have h2 := c7_shutdown_stops_executor 0 ["m1"] noSignal (fun _ => true) 1 0 0
    ⟨[1], 1⟩ [] ⟨["m1"], [⟨[1], 1⟩]⟩
  refine ⟨h.1 rfl, ?_, ?_, h.2.2.2⟩
  · have hb := h2.2.1 rfl (by norm_num) rfl
    simpa using hb
  · refine h2.2.2.1 ?_
    rw [snd_executeTraj]
    simp [execRun, noSignal]
    norm_num
